import Mathlib

/-!
Verification of the on-chain trade event reconciliation engine
(`syncPersonaFragmentTrades` in `src/sync/persona-fragment-trades.ts`).

The engine folds a batch of decoded `TradeExecuted` log entries into four
write sets (trade history inserts, holder balance upserts/deletes, market
snapshot upserts, hourly OHLCV bucket upserts) plus a checkpoint advance.
We embed the fold shallowly: TypeScript `Map`s become association lists with
the same get/set semantics (set replaces in place when the key is present,
otherwise appends), bigints become `Nat` (uint256 fields) or `Int` (the
trader balance, so that malformed negative values are expressible), and the
per-entry loop body becomes `foldStep`.
-/

namespace Gaia

/-- A decoded `TradeExecuted` log entry, as consumed by the sync loop.
All uint256 event arguments are modelled as `Nat`, except `traderBalance`
which is modelled as `Int` so that behaviour on malformed (negative)
upstream data can be stated; well-formed ABI decoding always yields a
non-negative value. -/
structure Entry where
  blockNumber : Nat
  txHash : String
  logIndex : Nat
  trader : String
  persona : String
  isBuy : Bool
  amount : Nat
  price : Nat
  protocolFee : Nat
  personaFee : Nat
  holdingReward : Nat
  supply : Nat
  traderBalance : Int
deriving DecidableEq

/-- Association-list lookup, mirroring TypeScript `Map.get`. -/
def mget {κ α : Type} [DecidableEq κ] (k : κ) : List (κ × α) → Option α
  | [] => none
  | (k', v) :: rest => if k' = k then some v else mget k rest

/-- Association-list insertion, mirroring TypeScript `Map.set`: replace in
place when the key is present, otherwise append at the end. -/
def mset {κ α : Type} [DecidableEq κ] (k : κ) (v : α) : List (κ × α) → List (κ × α)
  | [] => [(k, v)]
  | (k', v') :: rest => if k' = k then (k, v) :: rest else (k', v') :: mset k v rest

/-- Insertion-ordered set add, mirroring TypeScript `Set.add`. -/
def setAdd (x : String) (s : List String) : List String :=
  if x ∈ s then s else s ++ [x]

/-- The `HolderState` record tracked per (persona, trader) during the fold. -/
structure HolderState where
  finalBalance : Int
  lastTradePrice : Nat
  lastTradeIsBuy : Bool
  lastBlockNumber : Nat
  lastLogIndex : Nat
deriving DecidableEq

/-- The `PersonaSnapshot` record tracked per persona during the fold. -/
structure PersonaSnapshot where
  supplyAfter : Nat
  lastPrice : Nat
  lastIsBuy : Bool
  lastBlockNumber : Nat
  lastLogIndex : Nat
  lastTxHash : String
  lastUpdatedAt : Nat
deriving DecidableEq

/-- The in-batch `OhlcvBucketAgg` record per (persona, hour bucket). -/
structure OhlcvBucketAgg where
  bucketStart : Nat
  openPrice : Nat
  highPrice : Nat
  lowPrice : Nat
  closePrice : Nat
  volume : Nat
  buyVolume : Nat
  sellVolume : Nat
  tradeCount : Nat
deriving DecidableEq

/-- A row of `persona_fragment_trades` as produced by the INSERT OR IGNORE
statement built for one surviving entry. -/
structure TradeRow where
  txHash : String
  logIndex : Nat
  blockNumber : Nat
  blockTimestamp : Nat
  personaAddress : String
  traderAddress : String
  isBuy : Bool
  amount : Nat
  price : Nat
  protocolFee : Nat
  personaFee : Nat
  holdingReward : Nat
  supplyAfter : Nat
  traderBalanceAfter : Int
deriving DecidableEq

/-- In-memory state of one sync run (section 3 of the source): the trade
statements collected so far, the affected-personas set, and the three maps.
Nested maps in the source (persona -> trader -> state, persona -> bucket ->
agg) are flattened to pair keys, which preserves per-key get/set
semantics. -/
structure FoldState where
  trades : List TradeRow
  affectedPersonas : List String
  holders : List ((String × String) × HolderState)
  snapshots : List (String × PersonaSnapshot)
  ohlcv : List ((String × Nat) × OhlcvBucketAgg)
deriving DecidableEq

/-- The strict "later than" total order on (blockNumber, logIndex) used for
final-state arbitration: `blockNumber > existing.lastBlockNumber ||
(blockNumber === existing.lastBlockNumber && logIndex > existing.lastLogIndex)`. -/
def laterThan (b₁ l₁ b₂ l₂ : Nat) : Prop :=
  b₂ < b₁ ∨ (b₁ = b₂ ∧ l₂ < l₁)

instance laterThan.decidable (b₁ l₁ b₂ l₂ : Nat) : Decidable (laterThan b₁ l₁ b₂ l₂) := by
  unfold laterThan
  infer_instance

/-- Key of the holder-state map: (personaAddress, traderAddress). -/
def holderKey (e : Entry) : String × String :=
  (e.persona, e.trader)

/-- The new `HolderState` candidate produced from one entry (step 4-2). -/
def holderStateOf (e : Entry) : HolderState :=
  { finalBalance := e.traderBalance
    lastTradePrice := e.price
    lastTradeIsBuy := e.isBuy
    lastBlockNumber := e.blockNumber
    lastLogIndex := e.logIndex }

/-- Step 4-2 of the source loop: keep only the latest holder state per
(persona, trader) under the (blockNumber, logIndex) order. -/
def holdersUpdate (e : Entry) (m : List ((String × String) × HolderState)) :
    List ((String × String) × HolderState) :=
  match mget (holderKey e) m with
  | none => mset (holderKey e) (holderStateOf e) m
  | some ex =>
    if laterThan e.blockNumber e.logIndex ex.lastBlockNumber ex.lastLogIndex then
      mset (holderKey e) (holderStateOf e) m
    else m

/-- The new `PersonaSnapshot` candidate produced from one entry (step 4-3). -/
def snapshotOf (ts : Nat → Nat) (e : Entry) : PersonaSnapshot :=
  { supplyAfter := e.supply
    lastPrice := e.price
    lastIsBuy := e.isBuy
    lastBlockNumber := e.blockNumber
    lastLogIndex := e.logIndex
    lastTxHash := e.txHash
    lastUpdatedAt := ts e.blockNumber }

/-- Step 4-3 of the source loop: keep only the latest snapshot per persona
under the (blockNumber, logIndex) order. -/
def snapshotsUpdate (ts : Nat → Nat) (e : Entry) (m : List (String × PersonaSnapshot)) :
    List (String × PersonaSnapshot) :=
  match mget e.persona m with
  | none => mset e.persona (snapshotOf ts e) m
  | some ex =>
    if laterThan e.blockNumber e.logIndex ex.lastBlockNumber ex.lastLogIndex then
      mset e.persona (snapshotOf ts e) m
    else m

/-- Wei value of one trade: `amount * price`. -/
def tradeValue (e : Entry) : Nat :=
  e.amount * e.price

/-- Hour-aligned bucket start: `floor(blockTimestamp / 3600) * 3600`. -/
def bucketStartOf (ts : Nat → Nat) (e : Entry) : Nat :=
  ts e.blockNumber / 3600 * 3600

/-- Key of the OHLCV aggregation map: (personaAddress, bucketStart). -/
def bucketKeyOf (ts : Nat → Nat) (e : Entry) : String × Nat :=
  (e.persona, bucketStartOf ts e)

/-- Fresh bucket created for the first trade falling into a bucket (step 4-4). -/
def newBucket (bucketStart : Nat) (e : Entry) : OhlcvBucketAgg :=
  { bucketStart := bucketStart
    openPrice := e.price
    highPrice := e.price
    lowPrice := e.price
    closePrice := e.price
    volume := tradeValue e
    buyVolume := if e.isBuy then tradeValue e else 0
    sellVolume := if e.isBuy then 0 else tradeValue e
    tradeCount := 1 }

/-- In-place bucket update for a subsequent trade in the same bucket (step 4-4). -/
def updateBucket (b : OhlcvBucketAgg) (e : Entry) : OhlcvBucketAgg :=
  { b with
    closePrice := e.price
    highPrice := if e.price > b.highPrice then e.price else b.highPrice
    lowPrice := if e.price < b.lowPrice then e.price else b.lowPrice
    volume := b.volume + tradeValue e
    buyVolume := if e.isBuy then b.buyVolume + tradeValue e else b.buyVolume
    sellVolume := if e.isBuy then b.sellVolume else b.sellVolume + tradeValue e
    tradeCount := b.tradeCount + 1 }

/-- Step 4-4 of the source loop: aggregate one entry into its hourly bucket. -/
def ohlcvUpdate (ts : Nat → Nat) (e : Entry) (m : List ((String × Nat) × OhlcvBucketAgg)) :
    List ((String × Nat) × OhlcvBucketAgg) :=
  match mget (bucketKeyOf ts e) m with
  | none => mset (bucketKeyOf ts e) (newBucket (bucketStartOf ts e) e) m
  | some b => mset (bucketKeyOf ts e) (updateBucket b e) m

/-- The `persona_fragment_trades` row built for one surviving entry (step 4-1).
`ts` is the block-metadata collaborator (block number to unix timestamp),
cached per block in the source; a pure function models the cache exactly. -/
def tradeRowOf (ts : Nat → Nat) (e : Entry) : TradeRow :=
  { txHash := e.txHash
    logIndex := e.logIndex
    blockNumber := e.blockNumber
    blockTimestamp := ts e.blockNumber
    personaAddress := e.persona
    traderAddress := e.trader
    isBuy := e.isBuy
    amount := e.amount
    price := e.price
    protocolFee := e.protocolFee
    personaFee := e.personaFee
    holdingReward := e.holdingReward
    supplyAfter := e.supply
    traderBalanceAfter := e.traderBalance }

/-- One iteration of the main loop (section 4 of the source): the replay
filter `blockNumber <= lastSyncedBlockNumber` drops the entry; otherwise the
trade insert is collected, the persona is marked affected, and the three
maps are updated. -/
def foldStep (C : Nat) (ts : Nat → Nat) (st : FoldState) (e : Entry) : FoldState :=
  if e.blockNumber ≤ C then st
  else
    { trades := st.trades ++ [tradeRowOf ts e]
      affectedPersonas := setAdd e.persona st.affectedPersonas
      holders := holdersUpdate e st.holders
      snapshots := snapshotsUpdate ts e st.snapshots
      ohlcv := ohlcvUpdate ts e st.ohlcv }

/-- Empty in-memory state at the start of a sync run. -/
def initState : FoldState :=
  { trades := [], affectedPersonas := [], holders := [], snapshots := [], ohlcv := [] }

/-- The whole first pass (section 4): fold every fetched log entry. -/
def foldEntries (C : Nat) (ts : Nat → Nat) (logs : List Entry) : FoldState :=
  logs.foldl (foldStep C ts) initState

/-- A row of `persona_fragment_holders` as written by the holder upsert
(`updated_at`, a wall-clock default, is omitted). The balance is `Int` so
the engine's behaviour on malformed negative event data is expressible. -/
structure HolderRow where
  balance : Int
  lastTradePrice : Nat
  lastTradeIsBuy : Bool
deriving DecidableEq

/-- The holder balance table, keyed by (persona_address, holder_address). -/
abbrev HolderTable := List ((String × String) × HolderRow)

/-- One holder mutation of section 5: a DELETE or an INSERT .. ON CONFLICT
DO UPDATE on `persona_fragment_holders`. -/
inductive HolderWrite where
  | del (k : String × String)
  | upsert (k : String × String) (balance : Int) (lastTradePrice : Nat) (lastTradeIsBuy : Bool)
deriving DecidableEq

/-- Key targeted by a holder mutation. -/
def HolderWrite.key : HolderWrite → String × String
  | .del k => k
  | .upsert k _ _ _ => k

/-- Section 5 of the source, per tracked state: `finalBalance === 0n` emits
a DELETE, anything else emits an upsert of the final balance and last trade
price/direction. -/
def holderWriteOf (k : String × String) (st : HolderState) : HolderWrite :=
  if st.finalBalance = 0 then .del k
  else .upsert k st.finalBalance st.lastTradePrice st.lastTradeIsBuy

/-- Section 5 of the source: one mutation per tracked (persona, trader). -/
def holderWrites (holders : List ((String × String) × HolderState)) : List HolderWrite :=
  holders.map fun kv => holderWriteOf kv.1 kv.2

/-- SQL DELETE on the holder table: removes every row with the given key. -/
def dbDelete (k : String × String) (db : HolderTable) : HolderTable :=
  db.filter fun kv => kv.1 ≠ k

/-- Applying one holder mutation to the holder table. The upsert is
`INSERT .. ON CONFLICT(persona_address, holder_address) DO UPDATE`, i.e.
set-by-key. -/
def applyHolderWrite (db : HolderTable) (w : HolderWrite) : HolderTable :=
  match w with
  | .del k => dbDelete k db
  | .upsert k bal price isBuy => mset k ⟨bal, price, isBuy⟩ db

/-- Applying the holder mutations of section 5 in order. -/
def applyHolderWrites (ws : List HolderWrite) (db : HolderTable) : HolderTable :=
  ws.foldl applyHolderWrite db

/-- The `(SELECT COUNT(*) FROM persona_fragment_holders WHERE
persona_address = ?)` sub-query of section 6. -/
def holderCount (p : String) (db : HolderTable) : Nat :=
  (db.filter fun kv => kv.1.1 = p).length

/-- Holder count as seen by the market snapshot upsert: the sub-query runs
inside the same batch, after the holder statements, so it counts the table
with this pass's holder mutations already applied. -/
def snapshotHolderCount (p : String) (st : FoldState) (db : HolderTable) : Nat :=
  holderCount p (applyHolderWrites (holderWrites st.holders) db)

/-- A row of `persona_fragment_ohlcv_1h`. The four price columns are
nullable in the schema, hence `Option`; this engine always writes them
non-null. -/
structure OhlcvRow where
  openPrice : Option Nat
  highPrice : Option Nat
  lowPrice : Option Nat
  closePrice : Option Nat
  volume : Nat
  buyVolume : Nat
  sellVolume : Nat
  tradeCount : Nat
deriving DecidableEq

/-- The OHLCV table, keyed by (persona_address, bucket_start). -/
abbrev OhlcvTable := List ((String × Nat) × OhlcvRow)

/-- The Bucket Merge Resolver (section 7 of the source): merge the in-batch
aggregate with the persisted row, if any. The persisted open/high/low win
over or combine with the batch values only when non-null; close is always
the batch close; volumes and trade count accumulate. -/
def mergeBucket (existing : Option OhlcvRow) (agg : OhlcvBucketAgg) : OhlcvRow :=
  match existing with
  | none =>
    { openPrice := some agg.openPrice
      highPrice := some agg.highPrice
      lowPrice := some agg.lowPrice
      closePrice := some agg.closePrice
      volume := agg.volume
      buyVolume := agg.buyVolume
      sellVolume := agg.sellVolume
      tradeCount := agg.tradeCount }
  | some ex =>
    { openPrice := some (match ex.openPrice with
        | some exOpen => exOpen
        | none => agg.openPrice)
      highPrice := some (match ex.highPrice with
        | some exHigh => if exHigh > agg.highPrice then exHigh else agg.highPrice
        | none => agg.highPrice)
      lowPrice := some (match ex.lowPrice with
        | some exLow => if exLow < agg.lowPrice then exLow else agg.lowPrice
        | none => agg.lowPrice)
      closePrice := some agg.closePrice
      volume := agg.volume + ex.volume
      buyVolume := agg.buyVolume + ex.buyVolume
      sellVolume := agg.sellVolume + ex.sellVolume
      tradeCount := agg.tradeCount + ex.tradeCount }

/-- Section 7 of the source: one merged upsert per touched (persona, bucket),
reading the currently persisted row for that key. -/
def ohlcvWrites (ohlcvDb : OhlcvTable) (agg : List ((String × Nat) × OhlcvBucketAgg)) :
    OhlcvTable :=
  agg.map fun kv => (kv.1, mergeBucket (mget kv.1 ohlcvDb) kv.2)

/-- The Window Planner's upper bound: `toBlock = lastSynced + 500`, clamped
down to the chain head. -/
def planToBlock (C H : Nat) : Nat :=
  if C + 500 > H then H else C + 500

/-- The Window Planner's lower bound: `fromBlock = toBlock - 2*500`, clamped
up to 0 (computed on bigint in the source, hence `Int` before the clamp). -/
def planFromBlock (C H : Nat) : Int :=
  if (planToBlock C H : Int) - 1000 < 0 then 0 else (planToBlock C H : Int) - 1000

/-- The full write plan of one reconciliation pass, executed as a single
atomic batch: trade inserts, holder mutations, snapshot upserts (holder
count is re-derived at apply time via `snapshotHolderCount`), merged OHLCV
upserts, and the checkpoint value written to
`contract_event_sync_status.last_synced_block_number`. -/
structure PassWrites where
  trades : List TradeRow
  holderWrites : List HolderWrite
  snapshotWrites : List (String × PersonaSnapshot)
  ohlcvWrites : OhlcvTable
  checkpoint : Nat
deriving DecidableEq

/-- One reconciliation pass over the fetched logs: plan `toBlock`; with no
logs, or with every log filtered out (no trade statements and no affected
personas), only the checkpoint is written; otherwise all write sets are
produced from the fold, the OHLCV ones merged against the persisted table. -/
def runPass (C H : Nat) (ts : Nat → Nat) (logs : List Entry) (ohlcvDb : OhlcvTable) :
    PassWrites :=
  if logs = [] then
    { trades := [], holderWrites := [], snapshotWrites := [], ohlcvWrites := []
      checkpoint := planToBlock C H }
  else if (foldEntries C ts logs).trades = [] ∧ (foldEntries C ts logs).affectedPersonas = [] then
    { trades := [], holderWrites := [], snapshotWrites := [], ohlcvWrites := []
      checkpoint := planToBlock C H }
  else
    { trades := (foldEntries C ts logs).trades
      holderWrites := holderWrites (foldEntries C ts logs).holders
      snapshotWrites := (foldEntries C ts logs).snapshots
      ohlcvWrites := ohlcvWrites ohlcvDb (foldEntries C ts logs).ohlcv
      checkpoint := planToBlock C H }

/-- Per-key view of the holder tracking of step 4-2: how the entry `e`
changes the state stored at key `k` of the holder map. -/
def holderTrack (C : Nat) (k : String × String) (s : Option HolderState) (e : Entry) :
    Option HolderState :=
  if e.blockNumber ≤ C then s
  else if holderKey e = k then
    match s with
    | none => some (holderStateOf e)
    | some ex =>
      if laterThan e.blockNumber e.logIndex ex.lastBlockNumber ex.lastLogIndex then
        some (holderStateOf e)
      else s
  else s

/-- Per-key view of the OHLCV aggregation of step 4-4: how the entry `e`
changes the aggregate stored at key `k` of the bucket map. -/
def ohlcvTrack (C : Nat) (ts : Nat → Nat) (k : String × Nat) (s : Option OhlcvBucketAgg)
    (e : Entry) : Option OhlcvBucketAgg :=
  if e.blockNumber ≤ C then s
  else if bucketKeyOf ts e = k then
    match s with
    | none => some (newBucket (bucketStartOf ts e) e)
    | some b => some (updateBucket b e)
  else s

/-- Sequential composition of two in-batch aggregates over the same bucket:
the combined aggregate keeps the first part's open, takes extrema for
high/low, the second part's close, and adds volumes and counts. -/
def combineAgg (a b : OhlcvBucketAgg) : OhlcvBucketAgg :=
  { bucketStart := a.bucketStart
    openPrice := a.openPrice
    highPrice := if a.highPrice > b.highPrice then a.highPrice else b.highPrice
    lowPrice := if a.lowPrice < b.lowPrice then a.lowPrice else b.lowPrice
    closePrice := b.closePrice
    volume := a.volume + b.volume
    buyVolume := a.buyVolume + b.buyVolume
    sellVolume := a.sellVolume + b.sellVolume
    tradeCount := a.tradeCount + b.tradeCount }

/-- The persisted row produced by upserting an in-batch aggregate with no
pre-existing row: all price columns written non-null. -/
def rowOfAgg (a : OhlcvBucketAgg) : OhlcvRow :=
  { openPrice := some a.openPrice
    highPrice := some a.highPrice
    lowPrice := some a.lowPrice
    closePrice := some a.closePrice
    volume := a.volume
    buyVolume := a.buyVolume
    sellVolume := a.sellVolume
    tradeCount := a.tradeCount }

/-- A baseline concrete entry used to build test inputs. -/
def e0 : Entry :=
  { blockNumber := 1200
    txHash := "t1"
    logIndex := 0
    trader := "H"
    persona := "M"
    isBuy := true
    amount := 3
    price := 2
    protocolFee := 0
    personaFee := 0
    holdingReward := 0
    supply := 10
    traderBalance := 100 }

/-- A concrete block-timestamp assignment for test inputs. -/
def ts0 : Nat → Nat := fun b => 3600 * 2 + b % 60

/-- Concrete entry at (block 100, logIndex 2) reporting balance 7. -/
def eA : Entry :=
  { e0 with blockNumber := 100, logIndex := 2, txHash := "a", traderBalance := 7, price := 4 }

/-- Concrete entry at (block 100, logIndex 5) reporting balance 9. -/
def eB : Entry :=
  { e0 with blockNumber := 100, logIndex := 5, txHash := "b", traderBalance := 9, price := 6 }

/-- Concrete entry in the hour bucket 7200 at block 1100, price 5. -/
def e1 : Entry :=
  { e0 with blockNumber := 1100, logIndex := 1, txHash := "c", price := 5, amount := 2 }

/-- Concrete entry in the hour bucket 7200 at block 1300, price 3. -/
def e2 : Entry :=
  { e0 with blockNumber := 1300, logIndex := 0, txHash := "d", price := 3, amount := 4 }

/-- Concrete entry reporting a malformed negative final balance. -/
def eNeg : Entry :=
  { e0 with traderBalance := -5 }

/-- Concrete entry reporting a zero final balance (full exit). -/
def eZero : Entry :=
  { e0 with traderBalance := 0 }

/-- Concrete entry at block 900, i.e. at or before a checkpoint of 1000. -/
def eOld : Entry :=
  { e0 with blockNumber := 900, txHash := "e" }

/-- The row persisted for bucket `k` by a single pass over the batch `l`
starting from no persisted row: the in-batch aggregate merged with nothing. -/
def onePassBucket (C : Nat) (ts : Nat → Nat) (k : String × Nat) (l : List Entry) :
    Option OhlcvRow :=
  (mget k (foldEntries C ts l).ohlcv).map (mergeBucket none)

/-- The row persisted for bucket `k` after two sequential passes: the first
pass folds `l₁` and persists its aggregate; the second folds `l₂` and, when
the bucket is touched, merges its aggregate with the persisted row via the
Bucket Merge Resolver. -/
def twoPassBucket (C : Nat) (ts : Nat → Nat) (k : String × Nat) (l₁ l₂ : List Entry) :
    Option OhlcvRow :=
  match mget k (foldEntries C ts l₂).ohlcv with
  | none => onePassBucket C ts k l₁
  | some a2 => some (mergeBucket (onePassBucket C ts k l₁) a2)

theorem mget_mset_self {κ α : Type} [DecidableEq κ] (k : κ) (v : α) (m : List (κ × α)) :
    mget k (mset k v m) = some v := by
  induction m with
  | nil => simp [mget, mset]
  | cons kv rest ih =>
    by_cases h : kv.1 = k
    · simp [mset, mget, h]
    · simp [mset, mget, h, ih]

theorem mget_mset_ne {κ α : Type} [DecidableEq κ] {k k' : κ} (v : α) (m : List (κ × α))
    (h : k' ≠ k) : mget k (mset k' v m) = mget k m := by
  induction m with
  | nil => simp [mget, mset, h]
  | cons kv rest ih =>
    by_cases hk : kv.1 = k'
    · simp [mset, mget, hk, h]
    · by_cases hk2 : kv.1 = k
      · simp [mset, mget, hk, hk2, Ne.symm h]
      · simp [mset, mget, hk, hk2, ih]

theorem mget_eq_none_iff {κ α : Type} [DecidableEq κ] (k : κ) (m : List (κ × α)) :
    mget k m = none ↔ ∀ kv ∈ m, kv.1 ≠ k := by
  induction m with
  | nil => simp [mget]
  | cons kv rest ih =>
    by_cases h : kv.1 = k
    · simp [mget, h]
    · simp [mget, h, ih]

theorem mem_of_mget_eq_some {κ α : Type} [DecidableEq κ] {k : κ} {v : α} {m : List (κ × α)}
    (h : mget k m = some v) : (k, v) ∈ m := by
  induction m with
  | nil => simp [mget] at h
  | cons kv rest ih =>
    obtain ⟨k1, v1⟩ := kv
    by_cases hk : k1 = k
    · simp [mget, hk] at h
      subst hk
      subst h
      exact List.mem_cons_self _ _
    · simp [mget, hk] at h
      exact List.mem_cons_of_mem _ (ih h)

theorem mset_keys_of_mem {κ α : Type} [DecidableEq κ] {k : κ} (v : α) {m : List (κ × α)}
    (h : k ∈ m.map Prod.fst) : (mset k v m).map Prod.fst = m.map Prod.fst := by
  induction m with
  | nil => simp at h
  | cons kv rest ih =>
    by_cases hk : kv.1 = k
    · simp [mset, hk]
    · have hmem : k ∈ rest.map Prod.fst := by
        simp at h
        rcases h with h | h
        · exact (hk h.symm).elim
        · simpa using h
      simp [mset, hk, ih hmem]

theorem mset_keys_of_not_mem {κ α : Type} [DecidableEq κ] {k : κ} (v : α) {m : List (κ × α)}
    (h : k ∉ m.map Prod.fst) : mset k v m = m ++ [(k, v)] := by
  induction m with
  | nil => simp [mset]
  | cons kv rest ih =>
    have hk : kv.1 ≠ k := by
      intro hh
      exact h (by simp [hh])
    have hrest : k ∉ rest.map Prod.fst := by
      intro hh
      exact h (by simp [hh])
    simp [mset, hk, ih hrest]

theorem mset_keys_nodup {κ α : Type} [DecidableEq κ] (k : κ) (v : α) (m : List (κ × α))
    (h : (m.map Prod.fst).Nodup) : ((mset k v m).map Prod.fst).Nodup := by
  by_cases hmem : k ∈ m.map Prod.fst
  · rw [mset_keys_of_mem v hmem]
    exact h
  · rw [mset_keys_of_not_mem v hmem]
    simp [List.nodup_append, h, hmem]

theorem laterThan_irrefl (b l : Nat) : ¬ laterThan b l b l := by
  unfold laterThan
  omega

theorem laterThan_asymm {b₁ l₁ b₂ l₂ : Nat} (h : laterThan b₁ l₁ b₂ l₂) :
    ¬ laterThan b₂ l₂ b₁ l₁ := by
  unfold laterThan at h ⊢
  omega

theorem foldStep_holders (C : Nat) (ts : Nat → Nat) (k : String × String) (st : FoldState)
    (e : Entry) :
    mget k (foldStep C ts st e).holders = holderTrack C k (mget k st.holders) e := by
  by_cases hC : e.blockNumber ≤ C
  · simp [foldStep, holderTrack, hC]
  · simp only [foldStep, holderTrack, if_neg hC]
    by_cases hk : holderKey e = k
    · subst hk
      unfold holdersUpdate
      cases hs : mget (holderKey e) st.holders with
      | none => simp [hs, mget_mset_self]
      | some ex =>
        by_cases hl : laterThan e.blockNumber e.logIndex ex.lastBlockNumber ex.lastLogIndex
        · simp [hs, hl, mget_mset_self]
        · simp [hs, hl]
    · unfold holdersUpdate
      cases hs : mget (holderKey e) st.holders with
      | none => simp [hs, mget_mset_ne _ _ hk, hk]
      | some ex =>
        by_cases hl : laterThan e.blockNumber e.logIndex ex.lastBlockNumber ex.lastLogIndex
        · simp [hs, hl, mget_mset_ne _ _ hk, hk]
        · simp [hs, hl, hk]

theorem foldl_holders (C : Nat) (ts : Nat → Nat) (k : String × String) :
    ∀ (logs : List Entry) (st : FoldState),
      mget k ((logs.foldl (foldStep C ts) st).holders)
        = logs.foldl (holderTrack C k) (mget k st.holders) := by
  intro logs
  induction logs with
  | nil => intro st; rfl
  | cons e rest ih =>
    intro st
    simp only [List.foldl_cons]
    rw [ih, foldStep_holders]

theorem holderTrack_keep (C : Nat) (k : String × String) (st : HolderState) :
    ∀ (logs : List Entry),
      (∀ e ∈ logs, C < e.blockNumber → holderKey e = k →
        ¬ laterThan e.blockNumber e.logIndex st.lastBlockNumber st.lastLogIndex) →
      logs.foldl (holderTrack C k) (some st) = some st := by
  intro logs
  induction logs with
  | nil => intro _; rfl
  | cons e rest ih =>
    intro hkeep
    simp only [List.foldl_cons]
    have hstep : holderTrack C k (some st) e = some st := by
      unfold holderTrack
      by_cases hC : e.blockNumber ≤ C
      · simp [hC]
      · by_cases hk : holderKey e = k
        · have hnl := hkeep e (List.mem_cons_self _ _) (by omega) hk
          simp [if_neg hC, hk, hnl]
        · simp [if_neg hC, hk]
    rw [hstep]
    exact ih fun e' he' => hkeep e' (List.mem_cons_of_mem _ he')

theorem holderTrack_max (C : Nat) (k : String × String) :
    ∀ (logs : List Entry) (e : Entry), e ∈ logs → C < e.blockNumber → holderKey e = k →
      (∀ e' ∈ logs, holderKey e' = k → C < e'.blockNumber → e' ≠ e →
        laterThan e.blockNumber e.logIndex e'.blockNumber e'.logIndex) →
      ∀ s : Option HolderState,
        (∀ st, s = some st →
          laterThan e.blockNumber e.logIndex st.lastBlockNumber st.lastLogIndex) →
        logs.foldl (holderTrack C k) s = some (holderStateOf e) := by
  intro logs
  induction logs with
  | nil =>
    intro e he
    simp at he
  | cons x rest ih =>
    intro e he hC hk hmax s hs
    simp only [List.foldl_cons]
    by_cases hxe : x = e
    · subst hxe
      have hstep : holderTrack C k s x = some (holderStateOf x) := by
        unfold holderTrack
        cases s with
        | none => simp [if_neg (by omega : ¬ x.blockNumber ≤ C), hk]
        | some st =>
          simp [if_neg (by omega : ¬ x.blockNumber ≤ C), hk, hs st rfl]
      rw [hstep]
      apply holderTrack_keep
      intro e' he' hC' hk'
      by_cases hee : e' = x
      · subst hee
        exact laterThan_irrefl _ _
      · exact laterThan_asymm (hmax e' (List.mem_cons_of_mem _ he') hk' hC' hee)
    · have hemem : e ∈ rest := by
        rcases List.mem_cons.mp he with h | h
        · exact absurd h.symm hxe
        · exact h
      apply ih e hemem hC hk
        (fun e'' h1 h2 h3 h4 => hmax e'' (List.mem_cons_of_mem _ h1) h2 h3 h4)
      intro st hst
      unfold holderTrack at hst
      by_cases hCx : x.blockNumber ≤ C
      · rw [if_pos hCx] at hst
        exact hs st hst
      · rw [if_neg hCx] at hst
        by_cases hkx : holderKey x = k
        · rw [if_pos hkx] at hst
          have hlx := hmax x (List.mem_cons_self _ _) hkx (by omega) hxe
          cases s with
          | none =>
            simp at hst
            rw [← hst]
            exact hlx
          | some ex =>
            by_cases hl : laterThan x.blockNumber x.logIndex ex.lastBlockNumber ex.lastLogIndex
            · simp [hl] at hst
              rw [← hst]
              exact hlx
            · simp [hl] at hst
              rw [← hst]
              exact hs ex rfl
        · rw [if_neg hkx] at hst
          exact hs st hst

theorem foldEntries_holders_mget (C : Nat) (ts : Nat → Nat) (k : String × String)
    (logs : List Entry) :
    mget k (foldEntries C ts logs).holders = logs.foldl (holderTrack C k) none := by
  unfold foldEntries
  rw [foldl_holders]
  rfl

theorem foldEntries_holders_max (C : Nat) (ts : Nat → Nat) (logs : List Entry)
    (p h : String) (e : Entry)
    (he : e ∈ logs) (hp : e.persona = p) (ht : e.trader = h) (hC : C < e.blockNumber)
    (hmax : ∀ e' ∈ logs, e'.persona = p → e'.trader = h → C < e'.blockNumber → e' ≠ e →
      laterThan e.blockNumber e.logIndex e'.blockNumber e'.logIndex) :
    mget (p, h) (foldEntries C ts logs).holders = some (holderStateOf e) := by
  have hkey : holderKey e = (p, h) := by
    simp [holderKey, hp, ht]
  rw [foldEntries_holders_mget]
  apply holderTrack_max C (p, h) logs e he hC hkey
  · intro e' he' hk' hC' hne
    have hp' : e'.persona = p := by
      simpa using congrArg Prod.fst hk'
    have ht' : e'.trader = h := by
      simpa using congrArg Prod.snd hk'
    exact hmax e' he' hp' ht' hC' hne
  · intro st hst
    simp at hst

/-- C1: for every batch and every (market, holder) pair, the tracked final
balance equals the resulting trader balance of the entry that is latest
under the (blockNumber, logIndex) total order, and the tracked state is the
same for every permutation of the input array. -/
theorem claim1_holder_latest_wins (C : Nat) (ts : Nat → Nat) (logs logsPerm : List Entry)
    (p h : String) (e : Entry)
    (hperm : logs.Perm logsPerm)
    (he : e ∈ logs) (hp : e.persona = p) (ht : e.trader = h) (hC : C < e.blockNumber)
    (hmax : ∀ e' ∈ logs, e'.persona = p → e'.trader = h → C < e'.blockNumber → e' ≠ e →
      laterThan e.blockNumber e.logIndex e'.blockNumber e'.logIndex) :
    (mget (p, h) (foldEntries C ts logs).holders).map HolderState.finalBalance
        = some e.traderBalance
      ∧ mget (p, h) (foldEntries C ts logsPerm).holders
        = mget (p, h) (foldEntries C ts logs).holders := by
  have h1 := foldEntries_holders_max C ts logs p h e he hp ht hC hmax
  have h2 := foldEntries_holders_max C ts logsPerm p h e (hperm.mem_iff.mp he) hp ht hC
    (fun e' he' => hmax e' (hperm.mem_iff.mpr he'))
  constructor
  · rw [h1]
    rfl
  · rw [h1, h2]

theorem foldStep_of_le (C : Nat) (ts : Nat → Nat) (st : FoldState) (e : Entry)
    (h : e.blockNumber ≤ C) : foldStep C ts st e = st := by
  simp [foldStep, h]

theorem foldl_filter_new (C : Nat) (ts : Nat → Nat) :
    ∀ (logs : List Entry) (st : FoldState),
      logs.foldl (foldStep C ts) st
        = (logs.filter fun e => decide (C < e.blockNumber)).foldl (foldStep C ts) st := by
  intro logs
  induction logs with
  | nil => intro st; rfl
  | cons e rest ih =>
    intro st
    by_cases h : C < e.blockNumber
    · rw [List.filter_cons, if_pos (by simpa using h)]
      simp only [List.foldl_cons]
      exact ih _
    · rw [List.filter_cons, if_neg (by simpa using h)]
      simp only [List.foldl_cons]
      rw [foldStep_of_le C ts st e (by omega)]
      exact ih st

theorem foldEntries_filter_new (C : Nat) (ts : Nat → Nat) (logs : List Entry) :
    foldEntries C ts logs
      = foldEntries C ts (logs.filter fun e => decide (C < e.blockNumber)) := by
  unfold foldEntries
  exact foldl_filter_new C ts logs initState

theorem foldEntries_all_le (C : Nat) (ts : Nat → Nat) (logs : List Entry)
    (h : ∀ e ∈ logs, e.blockNumber ≤ C) : foldEntries C ts logs = initState := by
  rw [foldEntries_filter_new]
  have hnil : (logs.filter fun e => decide (C < e.blockNumber)) = [] := by
    rw [List.filter_eq_nil_iff]
    intro e he
    simpa using Nat.not_lt.mpr (h e he)
  rw [hnil]
  rfl

/-- C2: entries at or before the checkpoint are fully inert — the fold over
a batch equals the fold over its strictly-new entries only, so such entries
contribute to no write set (no trade insert, no holder state, no snapshot
candidate, no OHLCV aggregate), and the whole pass produces the same write
plan with or without them. -/
theorem claim2_replay_filter_inert (C H : Nat) (ts : Nat → Nat) (logs : List Entry)
    (ohlcvDb : OhlcvTable) :
    foldEntries C ts logs
        = foldEntries C ts (logs.filter fun e => decide (C < e.blockNumber))
      ∧ runPass C H ts logs ohlcvDb
        = runPass C H ts (logs.filter fun e => decide (C < e.blockNumber)) ohlcvDb := by
  refine ⟨foldEntries_filter_new C ts logs, ?_⟩
  by_cases hnil : logs = []
  · subst hnil
    rfl
  · by_cases hfnil : (logs.filter fun e => decide (C < e.blockNumber)) = []
    · have h0 : foldEntries C ts logs = initState := by
        rw [foldEntries_filter_new, hfnil]
        rfl
      simp only [runPass, hfnil, if_neg hnil, h0]
      simp [initState]
    · simp only [runPass, if_neg hnil, if_neg hfnil,
        foldEntries_filter_new C ts logs]

/-- C9: a pass whose window yields zero log entries, or whose entries all
fail the replay filter, still writes the checkpoint to the planned
`toBlock` and performs no other writes. -/
theorem claim9_noop_forward_progress (C H : Nat) (ts : Nat → Nat) (logs : List Entry)
    (ohlcvDb : OhlcvTable)
    (h : ∀ e ∈ logs, e.blockNumber ≤ C) :
    runPass C H ts logs ohlcvDb
      = { trades := [], holderWrites := [], snapshotWrites := [], ohlcvWrites := []
          checkpoint := planToBlock C H } := by
  by_cases hnil : logs = []
  · subst hnil
    rfl
  · have h0 : foldEntries C ts logs = initState := foldEntries_all_le C ts logs h
    simp only [runPass, if_neg hnil, h0]
    simp [initState]

/-- Witness for C9: one entry at block 900 against a checkpoint of 1000:
only the checkpoint (min(1000+500, 2000) = 1500) is written. -/
theorem claim9_witness :
    runPass 1000 2000 ts0 [eOld] []
      = { trades := [], holderWrites := [], snapshotWrites := [], ohlcvWrites := []
          checkpoint := 1500 } :=
  claim9_noop_forward_progress 1000 2000 ts0 [eOld] [] (by decide)

/-- Witness for C1: two entries for (market M, holder H) at (block 100,
logIndex 2) and (block 100, logIndex 5); the final balance is the
logIndex-5 entry's balance 9, in either input order. -/
theorem claim1_witness :
    (mget ("M", "H") (foldEntries 0 ts0 [eA, eB]).holders).map HolderState.finalBalance
        = some 9
      ∧ mget ("M", "H") (foldEntries 0 ts0 [eB, eA]).holders
        = mget ("M", "H") (foldEntries 0 ts0 [eA, eB]).holders :=
  claim1_holder_latest_wins 0 ts0 [eA, eB] [eB, eA] "M" "H" eB
    (by decide) (by decide) (by decide) (by decide) (by decide) (by decide)

theorem mget_dbDelete_self (k : String × String) (db : HolderTable) :
    mget k (dbDelete k db) = none := by
  induction db with
  | nil => rfl
  | cons kv rest ih =>
    by_cases h : kv.1 = k
    · simp [dbDelete, h] at ih ⊢
      exact ih
    · simp [dbDelete, mget, h] at ih ⊢
      exact ih

theorem mget_dbDelete_ne {k k' : String × String} (db : HolderTable) (h : k' ≠ k) :
    mget k (dbDelete k' db) = mget k db := by
  induction db with
  | nil => rfl
  | cons kv rest ih =>
    by_cases hk : kv.1 = k'
    · simp [dbDelete, mget, hk, h, Ne.symm h] at ih ⊢
      exact ih
    · by_cases hk2 : kv.1 = k
      · simp [dbDelete, mget, hk, hk2, Ne.symm h]
      · simp [dbDelete, mget, hk, hk2] at ih ⊢
        exact ih

theorem holderWriteOf_key (k : String × String) (st : HolderState) :
    (holderWriteOf k st).key = k := by
  unfold holderWriteOf
  by_cases h : st.finalBalance = 0
  · simp [h, HolderWrite.key]
  · simp [h, HolderWrite.key]

theorem applyHolderWrite_mget_ne {k : String × String} (db : HolderTable) (w : HolderWrite)
    (h : w.key ≠ k) : mget k (applyHolderWrite db w) = mget k db := by
  cases w with
  | del k' => exact mget_dbDelete_ne db h
  | upsert k' bal price isBuy => exact mget_mset_ne _ db h

theorem applyHolderWrites_untouched (k : String × String) :
    ∀ (ws : List HolderWrite) (db : HolderTable), (∀ w ∈ ws, w.key ≠ k) →
      mget k (applyHolderWrites ws db) = mget k db := by
  intro ws
  induction ws with
  | nil => intro db _; rfl
  | cons w rest ih =>
    intro db h
    have hstep : applyHolderWrites (w :: rest) db
        = applyHolderWrites rest (applyHolderWrite db w) := rfl
    rw [hstep, ih _ fun w' hw' => h w' (List.mem_cons_of_mem _ hw')]
    exact applyHolderWrite_mget_ne db w (h w (List.mem_cons_self _ _))

theorem holdersUpdate_nodup (e : Entry) (m : List ((String × String) × HolderState))
    (h : (m.map Prod.fst).Nodup) : ((holdersUpdate e m).map Prod.fst).Nodup := by
  unfold holdersUpdate
  cases mget (holderKey e) m with
  | none => exact mset_keys_nodup _ _ _ h
  | some ex =>
    by_cases hl : laterThan e.blockNumber e.logIndex ex.lastBlockNumber ex.lastLogIndex
    · simpa [hl] using mset_keys_nodup (holderKey e) (holderStateOf e) m h
    · simpa [hl] using h

theorem foldEntries_holders_nodup (C : Nat) (ts : Nat → Nat) (logs : List Entry) :
    (((foldEntries C ts logs).holders).map Prod.fst).Nodup := by
  have main : ∀ (l : List Entry) (st : FoldState), ((st.holders).map Prod.fst).Nodup →
      (((l.foldl (foldStep C ts) st).holders).map Prod.fst).Nodup := by
    intro l
    induction l with
    | nil => intro st h; exact h
    | cons e rest ih =>
      intro st h
      simp only [List.foldl_cons]
      apply ih
      by_cases hC : e.blockNumber ≤ C
      · simpa [foldStep, hC] using h
      · simpa [foldStep, hC] using holdersUpdate_nodup e st.holders h
  exact main logs initState (by simp [initState])

theorem holder_apply_mem (res : List ((String × String) × HolderState))
    (hnd : (res.map Prod.fst).Nodup) (k : String × String) (st : HolderState)
    (hget : mget k res = some st) (db : HolderTable) :
    mget k (applyHolderWrites (holderWrites res) db)
      = if st.finalBalance = 0 then none
        else some ⟨st.finalBalance, st.lastTradePrice, st.lastTradeIsBuy⟩ := by
  obtain ⟨l₁, l₂, hsplit⟩ := List.append_of_mem (mem_of_mget_eq_some hget)
  subst hsplit
  rw [List.map_append, List.map_cons] at hnd
  rw [List.nodup_append] at hnd
  obtain ⟨hnd1, hnd2, hdisj⟩ := hnd
  have hk2 : k ∉ l₂.map Prod.fst := (List.nodup_cons.mp hnd2).1
  have hws : holderWrites (l₁ ++ (k, st) :: l₂)
      = holderWrites l₁ ++ holderWriteOf k st :: holderWrites l₂ := by
    simp [holderWrites]
  rw [hws]
  rw [applyHolderWrites, List.foldl_append, List.foldl_cons]
  have huntouched : ∀ w ∈ holderWrites l₂, w.key ≠ k := by
    intro w hw
    obtain ⟨kv, hkv, rfl⟩ := List.mem_map.mp hw
    rw [holderWriteOf_key]
    intro hh
    exact hk2 (hh ▸ List.mem_map_of_mem Prod.fst hkv)
  have happ : List.foldl applyHolderWrite
      (applyHolderWrite (List.foldl applyHolderWrite db (holderWrites l₁)) (holderWriteOf k st))
      (holderWrites l₂)
      = applyHolderWrites (holderWrites l₂)
          (applyHolderWrite (applyHolderWrites (holderWrites l₁) db) (holderWriteOf k st)) := rfl
  rw [happ, applyHolderWrites_untouched k _ _ huntouched]
  unfold holderWriteOf
  by_cases hz : st.finalBalance = 0
  · simp only [hz, if_pos rfl, ite_true]
    exact mget_dbDelete_self k _
  · simp only [hz, ite_false, if_neg hz]
    exact mget_mset_self k _ _

/-- C3: for each (market, holder) with a tracked final state, the fold emits
a delete exactly when the final balance is zero and otherwise an upsert
setting balance and last trade price/direction to that final value, and
replaying the same batch on the resulting table leaves every holder's
stored row unchanged. -/
theorem claim3_holder_write_resolution (C : Nat) (ts : Nat → Nat) (logs : List Entry)
    (db : HolderTable) :
    (∀ (k : String × String) (st : HolderState),
        mget k (foldEntries C ts logs).holders = some st →
        mget k (applyHolderWrites (holderWrites (foldEntries C ts logs).holders) db)
          = if st.finalBalance = 0 then none
            else some ⟨st.finalBalance, st.lastTradePrice, st.lastTradeIsBuy⟩)
      ∧ ∀ k : String × String,
          mget k (applyHolderWrites (holderWrites (foldEntries C ts logs).holders)
            (applyHolderWrites (holderWrites (foldEntries C ts logs).holders) db))
          = mget k (applyHolderWrites (holderWrites (foldEntries C ts logs).holders) db) := by
  have hnd := foldEntries_holders_nodup C ts logs
  constructor
  · intro k st hget
    exact holder_apply_mem _ hnd k st hget db
  · intro k
    cases hget : mget k (foldEntries C ts logs).holders with
    | some st =>
      rw [holder_apply_mem _ hnd k st hget, holder_apply_mem _ hnd k st hget]
    | none =>
      have hkeys := (mget_eq_none_iff k _).mp hget
      have huntouched : ∀ w ∈ holderWrites (foldEntries C ts logs).holders, w.key ≠ k := by
        intro w hw
        obtain ⟨kv, hkv, rfl⟩ := List.mem_map.mp hw
        rw [holderWriteOf_key]
        exact hkeys kv hkv
      rw [applyHolderWrites_untouched k _ _ huntouched]

/-- Witness for C3: one buy of 100 fragments by holder H; the holder row is
upserted to balance 100 with last trade price 2 and direction buy. -/
theorem claim3_witness :
    mget ("M", "H") (applyHolderWrites (holderWrites (foldEntries 1000 ts0 [e0]).holders) [])
      = some ⟨100, 2, true⟩ := by
  have h := (claim3_holder_write_resolution 1000 ts0 [e0] []).1 ("M", "H")
    (holderStateOf e0) (by decide)
  rw [if_neg (by decide)] at h
  exact h

/-- C7 counterexample: one entry whose reported final balance is -5; the
tracked final balance is negative, yet the stored balance is -5, not 0 —
the engine performs no zero-clamp. -/
theorem claim7_counterexample :
    (mget ("M", "H") (foldEntries 1000 ts0 [eNeg]).holders).map HolderState.finalBalance
        = some (-5)
      ∧ (mget ("M", "H")
          (applyHolderWrites (holderWrites (foldEntries 1000 ts0 [eNeg]).holders) [])).map
            HolderRow.balance
        = some (-5)
      ∧ some (-5 : Int) ≠ some (0 : Int) := by
  refine ⟨by decide, by decide, by decide⟩

/-- C7 (amended): the engine performs no negative-balance clamp: a tracked
final balance that is negative (hence nonzero) is upserted verbatim as the
stored balance; only a final balance of exactly zero produces a delete.
Well-formed uint256 event data never reports a negative balance. -/
theorem claim7_no_negative_clamp (C : Nat) (ts : Nat → Nat) (logs : List Entry)
    (db : HolderTable) (k : String × String) (st : HolderState)
    (hget : mget k (foldEntries C ts logs).holders = some st)
    (hneg : st.finalBalance < 0) :
    (mget k (applyHolderWrites (holderWrites (foldEntries C ts logs).holders) db)).map
        HolderRow.balance
      = some st.finalBalance := by
  rw [holder_apply_mem _ (foldEntries_holders_nodup C ts logs) k st hget db]
  rw [if_neg (by omega)]
  rfl

/-- Witness for C7 (amended): the -5 balance entry is stored as -5. -/
theorem claim7_witness :
    (mget ("M", "H")
        (applyHolderWrites (holderWrites (foldEntries 1000 ts0 [eNeg]).holders) [])).map
          HolderRow.balance
      = some (-5) :=
  claim7_no_negative_clamp 1000 ts0 [eNeg] [] ("M", "H") (holderStateOf eNeg)
    (by decide) (by decide)

/-- C6 counterexample: with checkpoint 1000 and chain head 400, the planned
`toBlock = min(1000 + 500, 400) = 400` — written as the new checkpoint at
the end of the pass — is strictly below the checkpoint, refuting the claim
for arbitrary (C, H). -/
theorem claim6_counterexample :
    ¬ (1000 ≤ planToBlock 1000 400) := by
  decide

/-- C6 (amended): whenever the chain head is at least the checkpoint
(H ≥ C, the steady state barring chain resets), the planned
`toBlock = min(C + STEP, H)` is at least C, and every pass writes exactly
this planned value as the new checkpoint. -/
theorem claim6_checkpoint_monotone (C H : Nat) (ts : Nat → Nat) (logs : List Entry)
    (ohlcvDb : OhlcvTable) (h : C ≤ H) :
    C ≤ planToBlock C H
      ∧ (runPass C H ts logs ohlcvDb).checkpoint = planToBlock C H := by
  constructor
  · unfold planToBlock
    split <;> omega
  · unfold runPass
    split
    · rfl
    · split
      · rfl
      · rfl

/-- Witness for C6 (amended): checkpoint 1000, chain head 1500. -/
theorem claim6_witness :
    (1000 : Nat) ≤ planToBlock 1000 1500
      ∧ (runPass 1000 1500 ts0 [] []).checkpoint = planToBlock 1000 1500 :=
  claim6_checkpoint_monotone 1000 1500 ts0 [] [] (by decide)

theorem ite_gt_eq_max (a b : Nat) : (if a > b then a else b) = max a b := by
  by_cases h : a > b
  · rw [if_pos h]
    exact (Nat.max_eq_left (Nat.le_of_lt h)).symm
  · rw [if_neg h]
    exact (Nat.max_eq_right (Nat.le_of_not_lt h)).symm

theorem ite_lt_eq_min (a b : Nat) : (if a < b then a else b) = min a b := by
  by_cases h : a < b
  · rw [if_pos h]
    exact (Nat.min_eq_left (Nat.le_of_lt h)).symm
  · rw [if_neg h]
    exact (Nat.min_eq_right (Nat.le_of_not_lt h)).symm

/-- C5: for a touched bucket with a persisted row (whose price columns are
non-null, as every row this engine writes), the merged upsert keeps the
persisted open, takes max/min of persisted and batch high/low, takes the
batch close, and adds volumes and trade counts; with no persisted row the
batch aggregate is used unchanged. -/
theorem claim5_merge_resolver (ex : OhlcvRow) (agg : OhlcvBucketAgg)
    (exOpen exHigh exLow : Nat)
    (hOpen : ex.openPrice = some exOpen)
    (hHigh : ex.highPrice = some exHigh)
    (hLow : ex.lowPrice = some exLow) :
    (mergeBucket (some ex) agg).openPrice = some exOpen
      ∧ (mergeBucket (some ex) agg).highPrice = some (max exHigh agg.highPrice)
      ∧ (mergeBucket (some ex) agg).lowPrice = some (min exLow agg.lowPrice)
      ∧ (mergeBucket (some ex) agg).closePrice = some agg.closePrice
      ∧ (mergeBucket (some ex) agg).volume = ex.volume + agg.volume
      ∧ (mergeBucket (some ex) agg).buyVolume = ex.buyVolume + agg.buyVolume
      ∧ (mergeBucket (some ex) agg).sellVolume = ex.sellVolume + agg.sellVolume
      ∧ (mergeBucket (some ex) agg).tradeCount = ex.tradeCount + agg.tradeCount
      ∧ mergeBucket none agg = rowOfAgg agg := by
  refine ⟨?_, ?_, ?_, rfl, Nat.add_comm _ _, Nat.add_comm _ _, Nat.add_comm _ _,
    Nat.add_comm _ _, rfl⟩
  · simp [mergeBucket, hOpen]
  · simp only [mergeBucket, hHigh]
    rw [ite_gt_eq_max]
  · simp only [mergeBucket, hLow]
    rw [ite_lt_eq_min]

/-- Witness for C5: merging the bucket persisted from trade e1 (price 5)
with the batch aggregate of trade e2 (price 3) keeps open 5. -/
theorem claim5_witness :
    (mergeBucket (some (rowOfAgg (newBucket 7200 e1))) (newBucket 7200 e2)).openPrice
        = some 5
      ∧ (mergeBucket (some (rowOfAgg (newBucket 7200 e1))) (newBucket 7200 e2)).highPrice
        = some (max 5 3)
      ∧ (mergeBucket (some (rowOfAgg (newBucket 7200 e1))) (newBucket 7200 e2)).closePrice
        = some 3 := by
  have h := claim5_merge_resolver (rowOfAgg (newBucket 7200 e1)) (newBucket 7200 e2)
    5 5 5 rfl rfl rfl
  exact ⟨h.1, h.2.1, h.2.2.2.1⟩

theorem foldStep_ohlcv (C : Nat) (ts : Nat → Nat) (k : String × Nat) (st : FoldState)
    (e : Entry) :
    mget k (foldStep C ts st e).ohlcv = ohlcvTrack C ts k (mget k st.ohlcv) e := by
  by_cases hC : e.blockNumber ≤ C
  · simp [foldStep, ohlcvTrack, hC]
  · simp only [foldStep, ohlcvTrack, if_neg hC]
    by_cases hk : bucketKeyOf ts e = k
    · subst hk
      unfold ohlcvUpdate
      cases hs : mget (bucketKeyOf ts e) st.ohlcv with
      | none => simp [hs, mget_mset_self]
      | some b => simp [hs, mget_mset_self]
    · unfold ohlcvUpdate
      cases hs : mget (bucketKeyOf ts e) st.ohlcv with
      | none => simp [hs, mget_mset_ne _ _ hk, hk]
      | some b => simp [hs, mget_mset_ne _ _ hk, hk]

theorem foldl_ohlcv (C : Nat) (ts : Nat → Nat) (k : String × Nat) :
    ∀ (logs : List Entry) (st : FoldState),
      mget k ((logs.foldl (foldStep C ts) st).ohlcv)
        = logs.foldl (ohlcvTrack C ts k) (mget k st.ohlcv) := by
  intro logs
  induction logs with
  | nil => intro st; rfl
  | cons e rest ih =>
    intro st
    simp only [List.foldl_cons]
    rw [ih, foldStep_ohlcv]

theorem foldEntries_ohlcv_mget (C : Nat) (ts : Nat → Nat) (k : String × Nat)
    (logs : List Entry) :
    mget k (foldEntries C ts logs).ohlcv = logs.foldl (ohlcvTrack C ts k) none := by
  unfold foldEntries
  rw [foldl_ohlcv]
  rfl

theorem updateBucket_eq_combine (a : OhlcvBucketAgg) (e : Entry) (bs : Nat) :
    updateBucket a e = combineAgg a (newBucket bs e) := by
  cases hb : e.isBuy <;>
    simp [updateBucket, combineAgg, newBucket, hb, ite_gt_eq_max, ite_lt_eq_min,
      Nat.max_comm, Nat.min_comm]

theorem combineAgg_assoc (a b c : OhlcvBucketAgg) :
    combineAgg (combineAgg a b) c = combineAgg a (combineAgg b c) := by
  simp only [combineAgg]
  simp only [ite_gt_eq_max, ite_lt_eq_min]
  simp [Nat.max_assoc, Nat.min_assoc, Nat.add_assoc]

theorem ohlcvTrack_from_some (C : Nat) (ts : Nat → Nat) (k : String × Nat) :
    ∀ (l : List Entry) (a : OhlcvBucketAgg),
      l.foldl (ohlcvTrack C ts k) (some a)
        = match l.foldl (ohlcvTrack C ts k) none with
          | none => some a
          | some b => some (combineAgg a b) := by
  intro l
  induction l with
  | nil => intro a; rfl
  | cons x xs ih =>
    intro a
    by_cases hC : x.blockNumber ≤ C
    · have hskip : ∀ s, ohlcvTrack C ts k s x = s := by
        intro s
        simp [ohlcvTrack, hC]
      simp only [List.foldl_cons, hskip]
      exact ih a
    · by_cases hk : bucketKeyOf ts x = k
      · have h1 : ohlcvTrack C ts k (some a) x = some (updateBucket a x) := by
          simp [ohlcvTrack, hC, hk]
        have h2 : ohlcvTrack C ts k none x
            = some (newBucket (bucketStartOf ts x) x) := by
          simp [ohlcvTrack, hC, hk]
        simp only [List.foldl_cons, h1, h2]
        rw [ih (updateBucket a x), ih (newBucket (bucketStartOf ts x) x)]
        cases hfold : xs.foldl (ohlcvTrack C ts k) none with
        | none =>
          simp only [hfold]
          rw [updateBucket_eq_combine a x (bucketStartOf ts x)]
        | some b =>
          simp only [hfold]
          rw [updateBucket_eq_combine a x (bucketStartOf ts x),
            combineAgg_assoc]
      · have hskip : ∀ s, ohlcvTrack C ts k s x = s := by
          intro s
          simp [ohlcvTrack, hC, hk]
        simp only [List.foldl_cons, hskip]
        exact ih a

theorem ohlcv_fold_open (C : Nat) (ts : Nat → Nat) (k : String × Nat) (l : List Entry)
    (a : OhlcvBucketAgg) :
    (l.foldl (ohlcvTrack C ts k) (some a)).map OhlcvBucketAgg.openPrice
      = some a.openPrice := by
  rw [ohlcvTrack_from_some]
  cases l.foldl (ohlcvTrack C ts k) none with
  | none => rfl
  | some b => rfl

theorem ohlcv_fold_close (C : Nat) (ts : Nat → Nat) (k : String × Nat) :
    ∀ (l : List Entry) (a : OhlcvBucketAgg),
      (∀ e ∈ l, ¬ e.blockNumber ≤ C ∧ bucketKeyOf ts e = k) →
      (l.foldl (ohlcvTrack C ts k) (some a)).map OhlcvBucketAgg.closePrice
        = some (match l.getLast? with
            | none => a.closePrice
            | some x => x.price) := by
  intro l
  induction l with
  | nil => intro a _; rfl
  | cons x xs ih =>
    intro a h
    obtain ⟨hC, hk⟩ := h x (List.mem_cons_self _ _)
    have hstep : ohlcvTrack C ts k (some a) x = some (updateBucket a x) := by
      simp [ohlcvTrack, hC, hk]
    simp only [List.foldl_cons, hstep]
    rw [ih (updateBucket a x) fun e he => h e (List.mem_cons_of_mem _ he)]
    cases xs with
    | nil => rfl
    | cons y ys =>
      rw [List.getLast?_cons_cons]
      cases hlast : (y :: ys).getLast? with
      | none =>
        rw [List.getLast?_eq_none_iff] at hlast
        exact absurd hlast (List.cons_ne_nil _ _)
      | some z => rfl

theorem ohlcvTrack_filter (C : Nat) (ts : Nat → Nat) (k : String × Nat) :
    ∀ (l : List Entry) (s : Option OhlcvBucketAgg),
      l.foldl (ohlcvTrack C ts k) s
        = (l.filter fun e =>
            decide (C < e.blockNumber) && decide (bucketKeyOf ts e = k)).foldl
              (ohlcvTrack C ts k) s := by
  intro l
  induction l with
  | nil => intro s; rfl
  | cons x xs ih =>
    intro s
    by_cases h1 : C < x.blockNumber
    · by_cases h2 : bucketKeyOf ts x = k
      · rw [List.filter_cons, if_pos (by simp [h1, h2])]
        simp only [List.foldl_cons]
        exact ih _
      · rw [List.filter_cons, if_neg (by simp [h2])]
        simp only [List.foldl_cons]
        have hskip : ohlcvTrack C ts k s x = s := by
          simp [ohlcvTrack, h2]
        rw [hskip]
        exact ih s
    · rw [List.filter_cons, if_neg (by simp [h1])]
      simp only [List.foldl_cons]
      have hskip : ohlcvTrack C ts k s x = s := by
        simp [ohlcvTrack, Nat.not_lt.mp h1]
      rw [hskip]
      exact ih s

theorem mergeBucket_rowOfAgg (a b : OhlcvBucketAgg) :
    mergeBucket (some (rowOfAgg a)) b = rowOfAgg (combineAgg a b) := by
  simp [mergeBucket, rowOfAgg, combineAgg, Nat.add_comm]

/-- C4: folding the first K trades of a single-bucket batch, persisting,
then folding the rest and merging via the Bucket Merge Resolver yields
exactly the bucket of folding everything in one pass, and the open price is
the very first trade's price in both cases. -/
theorem claim4_ohlcv_split_merge (C : Nat) (ts : Nat → Nat) (p : String) (b : Nat)
    (l₁ l₂ : List Entry)
    (hrel : ∀ e ∈ l₁ ++ l₂, C < e.blockNumber ∧ bucketKeyOf ts e = (p, b)) :
    twoPassBucket C ts (p, b) l₁ l₂ = onePassBucket C ts (p, b) (l₁ ++ l₂)
      ∧ ∀ (x : Entry) (rest : List Entry), l₁ ++ l₂ = x :: rest →
          (onePassBucket C ts (p, b) (l₁ ++ l₂)).map OhlcvRow.openPrice
              = some (some x.price)
            ∧ (twoPassBucket C ts (p, b) l₁ l₂).map OhlcvRow.openPrice
              = some (some x.price) := by
  have hnone : ∀ a : OhlcvBucketAgg, mergeBucket none a = rowOfAgg a := fun a => rfl
  have hmain : twoPassBucket C ts (p, b) l₁ l₂ = onePassBucket C ts (p, b) (l₁ ++ l₂) := by
    unfold twoPassBucket onePassBucket
    rw [foldEntries_ohlcv_mget, foldEntries_ohlcv_mget, foldEntries_ohlcv_mget,
      List.foldl_append]
    cases h1 : l₁.foldl (ohlcvTrack C ts (p, b)) none with
    | none =>
      cases h2 : l₂.foldl (ohlcvTrack C ts (p, b)) none with
      | none => simp [h1, h2]
      | some a2 => simp [h1, h2]
    | some a1 =>
      rw [ohlcvTrack_from_some]
      cases h2 : l₂.foldl (ohlcvTrack C ts (p, b)) none with
      | none => simp [h1, h2]
      | some a2 =>
        simp only [h1, h2, Option.map_some']
        rw [hnone a1, mergeBucket_rowOfAgg, hnone (combineAgg a1 a2)]
  refine ⟨hmain, ?_⟩
  intro x rest hsplit
  have hopen : (onePassBucket C ts (p, b) (l₁ ++ l₂)).map OhlcvRow.openPrice
      = some (some x.price) := by
    unfold onePassBucket
    rw [foldEntries_ohlcv_mget, hsplit]
    obtain ⟨hCx, hkx⟩ := hrel x (hsplit ▸ List.mem_cons_self x rest)
    have hstep : ohlcvTrack C ts (p, b) none x
        = some (newBucket (bucketStartOf ts x) x) := by
      simp [ohlcvTrack, hkx, Nat.not_le.mpr hCx]
    simp only [List.foldl_cons, hstep]
    have ho := ohlcv_fold_open C ts (p, b) rest (newBucket (bucketStartOf ts x) x)
    cases hfold : rest.foldl (ohlcvTrack C ts (p, b))
        (some (newBucket (bucketStartOf ts x) x)) with
    | none =>
      rw [hfold] at ho
      simp at ho
    | some agg =>
      rw [hfold] at ho
      simp [newBucket] at ho
      simp [mergeBucket, ho]
  exact ⟨hopen, by rw [hmain]; exact hopen⟩

/-- Witness for C4: trades e1 (price 5) then e2 (price 3) split 1/1 across
two passes give the same merged bucket as a single pass, with open 5. -/
theorem claim4_witness :
    twoPassBucket 1000 ts0 ("M", 7200) [e1] [e2]
        = onePassBucket 1000 ts0 ("M", 7200) [e1, e2]
      ∧ (twoPassBucket 1000 ts0 ("M", 7200) [e1] [e2]).map OhlcvRow.openPrice
        = some (some 5) := by
  have h := claim4_ohlcv_split_merge 1000 ts0 "M" 7200 [e1] [e2] (by decide)
  exact ⟨h.1, (h.2 e1 [e2] rfl).2⟩

/-- C10 (implicit): within a batch, a bucket's in-batch open price is the
first surviving entry's price in input iteration order and its close price
is the last surviving entry's price in input iteration order — not
arbitrated by (blockNumber, logIndex) — and two orderings of the same entry
set can produce different open/close values. -/
theorem claim10_ohlcv_open_close_input_order
    (C : Nat) (ts : Nat → Nat) (p : String) (b : Nat) (logs : List Entry)
    (x : Entry) (rest : List Entry)
    (hfilter : logs.filter (fun e => decide (C < e.blockNumber)
        && decide (bucketKeyOf ts e = (p, b))) = x :: rest) :
    ((mget (p, b) (foldEntries C ts logs).ohlcv).map OhlcvBucketAgg.openPrice
        = some x.price
      ∧ (mget (p, b) (foldEntries C ts logs).ohlcv).map OhlcvBucketAgg.closePrice
        = some (((x :: rest).getLast (List.cons_ne_nil x rest)).price))
      ∧ mget ("M", 7200) (foldEntries 0 ts0 [eA, eB]).ohlcv
        ≠ mget ("M", 7200) (foldEntries 0 ts0 [eB, eA]).ohlcv := by
  constructor
  · have hrel : ∀ e ∈ x :: rest, C < e.blockNumber ∧ bucketKeyOf ts e = (p, b) := by
      intro e he
      have hmem : e ∈ logs.filter (fun e => decide (C < e.blockNumber)
          && decide (bucketKeyOf ts e = (p, b))) := by
        rw [hfilter]
        exact he
      have hp := (List.mem_filter.mp hmem).2
      simpa using hp
    obtain ⟨hCx, hkx⟩ := hrel x (List.mem_cons_self x rest)
    have hbase : mget (p, b) (foldEntries C ts logs).ohlcv
        = rest.foldl (ohlcvTrack C ts (p, b)) (some (newBucket (bucketStartOf ts x) x)) := by
      rw [foldEntries_ohlcv_mget, ohlcvTrack_filter, hfilter]
      have hstep : ohlcvTrack C ts (p, b) none x
          = some (newBucket (bucketStartOf ts x) x) := by
        simp [ohlcvTrack, hkx, Nat.not_le.mpr hCx]
      simp only [List.foldl_cons, hstep]
    constructor
    · rw [hbase]
      have ho := ohlcv_fold_open C ts (p, b) rest (newBucket (bucketStartOf ts x) x)
      simpa [newBucket] using ho
    · rw [hbase]
      have hc := ohlcv_fold_close C ts (p, b) rest (newBucket (bucketStartOf ts x) x)
        (fun e he => by
          obtain ⟨h1, h2⟩ := hrel e (List.mem_cons_of_mem _ he)
          exact ⟨Nat.not_le.mpr h1, h2⟩)
      rw [hc]
      cases rest with
      | nil => simp [newBucket]
      | cons y ys =>
        rw [List.getLast?_eq_getLast (y :: ys) (List.cons_ne_nil y ys)]
        simp [List.getLast_cons]
  · decide

/-- Witness for C10: with entries eA then eB the in-batch open is eA's
price 4; the concrete order-sensitivity conjunct is part of the theorem. -/
theorem claim10_witness :
    (mget ("M", 7200) (foldEntries 0 ts0 [eA, eB]).ohlcv).map OhlcvBucketAgg.openPrice
      = some 4 := by
  have h := claim10_ohlcv_open_close_input_order 0 ts0 "M" 7200 [eA, eB] eA [eB]
    (by decide)
  exact h.1.1

theorem dbDelete_pfilter_ne (k : String × String) (p : String) (hk : k.1 ≠ p) :
    ∀ db : HolderTable,
      (dbDelete k db).filter (fun kv => kv.1.1 = p) = db.filter fun kv => kv.1.1 = p := by
  intro db
  induction db with
  | nil => rfl
  | cons kv rest ih =>
    by_cases h1 : kv.1 = k
    · have h2 : ¬ kv.1.1 = p := by
        rw [h1]
        exact hk
      simp only [dbDelete, List.filter_cons] at ih ⊢
      simp [h1, h2, hk] at ih ⊢
      exact ih
    · by_cases h2 : kv.1.1 = p
      · simp only [dbDelete, List.filter_cons] at ih ⊢
        simp [h1, h2, hk] at ih ⊢
        exact ih
      · simp only [dbDelete, List.filter_cons] at ih ⊢
        simp [h1, h2, hk] at ih ⊢
        exact ih

theorem mset_pfilter_ne (k : String × String) (v : HolderRow) (p : String) (hk : k.1 ≠ p) :
    ∀ db : HolderTable,
      (mset k v db).filter (fun kv => kv.1.1 = p) = db.filter fun kv => kv.1.1 = p := by
  intro db
  induction db with
  | nil => simp [mset, List.filter_cons, hk]
  | cons kv rest ih =>
    by_cases h1 : kv.1 = k
    · have h2 : ¬ kv.1.1 = p := by
        rw [h1]
        exact hk
      simp [mset, List.filter_cons, h1, h2, hk]
    · by_cases h2 : kv.1.1 = p
      · simp [mset, List.filter_cons, h1, h2, ih]
      · simp [mset, List.filter_cons, h1, h2, ih]

theorem dbDelete_pfilter_same (p h : String) :
    ∀ db : HolderTable,
      (dbDelete (p, h) db).filter (fun kv => kv.1.1 = p)
        = dbDelete (p, h) (db.filter fun kv => kv.1.1 = p) := by
  intro db
  induction db with
  | nil => rfl
  | cons kv rest ih =>
    by_cases h1 : kv.1 = (p, h)
    · have h2 : kv.1.1 = p := by
        rw [h1]
      simp [dbDelete, List.filter_cons, h1, h2] at ih ⊢
      exact ih
    · by_cases h2 : kv.1.1 = p
      · simp [dbDelete, List.filter_cons, h1, h2] at ih ⊢
        exact ih
      · simp [dbDelete, List.filter_cons, h1, h2] at ih ⊢
        exact ih

theorem mset_pfilter_same (p h : String) (v : HolderRow) :
    ∀ db : HolderTable,
      (mset (p, h) v db).filter (fun kv => kv.1.1 = p)
        = mset (p, h) v (db.filter fun kv => kv.1.1 = p) := by
  intro db
  induction db with
  | nil => simp [mset, List.filter_cons]
  | cons kv rest ih =>
    by_cases h1 : kv.1 = (p, h)
    · have h2 : kv.1.1 = p := by
        rw [h1]
      simp [mset, List.filter_cons, h1, h2]
    · by_cases h2 : kv.1.1 = p
      · simp [mset, List.filter_cons, h1, h2, ih]
      · simp [mset, List.filter_cons, h1, h2, ih]

theorem applyHolderWrites_pfilter (p : String) :
    ∀ (ws : List HolderWrite) (db : HolderTable), (∀ w ∈ ws, w.key.1 ≠ p) →
      (applyHolderWrites ws db).filter (fun kv => kv.1.1 = p)
        = db.filter fun kv => kv.1.1 = p := by
  intro ws
  induction ws with
  | nil => intro db _; rfl
  | cons w rest ih =>
    intro db hw
    have hstep : applyHolderWrites (w :: rest) db
        = applyHolderWrites rest (applyHolderWrite db w) := rfl
    rw [hstep, ih _ fun w' hw' => hw w' (List.mem_cons_of_mem _ hw')]
    have hk := hw w (List.mem_cons_self _ _)
    cases w with
    | del k => exact dbDelete_pfilter_ne k p hk db
    | upsert k bal price isBuy => exact mset_pfilter_ne k _ p hk db

theorem dbDelete_of_not_mem (k : String × String) :
    ∀ db : HolderTable, k ∉ db.map Prod.fst → dbDelete k db = db := by
  intro db
  induction db with
  | nil => intro _; rfl
  | cons kv rest ih =>
    intro hmem
    have h1 : kv.1 ≠ k := by
      intro hh
      exact hmem (by simp [hh])
    have h2 : k ∉ rest.map Prod.fst := by
      intro hh
      exact hmem (by simp [hh])
    have ih2 := ih h2
    unfold dbDelete at ih2 ⊢
    rw [List.filter_cons, if_pos (by simp [h1]), ih2]

theorem dbDelete_length_mem (k : String × String) :
    ∀ db : HolderTable, (db.map Prod.fst).Nodup → k ∈ db.map Prod.fst →
      (dbDelete k db).length + 1 = db.length := by
  intro db
  induction db with
  | nil =>
    intro _ hmem
    simp at hmem
  | cons kv rest ih =>
    intro hnd hmem
    rw [List.map_cons, List.nodup_cons] at hnd
    by_cases h1 : kv.1 = k
    · have hrest : k ∉ rest.map Prod.fst := h1 ▸ hnd.1
      have hdel : dbDelete k rest = rest := dbDelete_of_not_mem k rest hrest
      unfold dbDelete at hdel ⊢
      rw [List.filter_cons, if_neg (by simp [h1]), hdel]
      simp
    · have hmem' : k ∈ rest.map Prod.fst := by
        rw [List.map_cons] at hmem
        rcases List.mem_cons.mp hmem with hh | hh
        · exact absurd hh.symm h1
        · exact hh
      have ih2 := ih hnd.2 hmem'
      unfold dbDelete at ih2 ⊢
      rw [List.filter_cons, if_pos (by simp [h1])]
      simp only [List.length_cons]
      omega

theorem mem_keys_pfilter (p h : String) (db : HolderTable)
    (hmem : (p, h) ∈ db.map Prod.fst) :
    (p, h) ∈ (db.filter fun kv => kv.1.1 = p).map Prod.fst := by
  obtain ⟨kv, hkv, hk⟩ := List.mem_map.mp hmem
  apply List.mem_map.mpr
  refine ⟨kv, List.mem_filter.mpr ⟨hkv, by simp [hk]⟩, hk⟩

theorem not_mem_keys_pfilter (p h : String) (db : HolderTable)
    (hmem : (p, h) ∉ db.map Prod.fst) :
    (p, h) ∉ (db.filter fun kv => kv.1.1 = p).map Prod.fst := by
  intro hin
  apply hmem
  obtain ⟨kv, hkv, hk⟩ := List.mem_map.mp hin
  exact List.mem_map.mpr ⟨kv, (List.mem_filter.mp hkv).1, hk⟩

theorem pfilter_keys_nodup (p : String) (db : HolderTable)
    (hnd : (db.map Prod.fst).Nodup) :
    ((db.filter fun kv => kv.1.1 = p).map Prod.fst).Nodup := by
  have hsub : List.Sublist (db.filter fun kv => kv.1.1 = p) db := List.filter_sublist db
  exact (hsub.map Prod.fst).nodup hnd

theorem holderCount_apply (res : List ((String × String) × HolderState))
    (hnd : (res.map Prod.fst).Nodup) (p h : String) (st : HolderState)
    (hget : mget (p, h) res = some st)
    (honly : ∀ h', h' ≠ h → mget (p, h') res = none)
    (db : HolderTable) :
    holderCount p (applyHolderWrites (holderWrites res) db)
      = (if st.finalBalance = 0
         then dbDelete (p, h) (db.filter fun kv => kv.1.1 = p)
         else mset (p, h) ⟨st.finalBalance, st.lastTradePrice, st.lastTradeIsBuy⟩
             (db.filter fun kv => kv.1.1 = p)).length := by
  have hponly : ∀ kv ∈ res, kv.1.1 = p → kv.1 = (p, h) := by
    intro kv hkv hp1
    by_cases hh : kv.1.2 = h
    · have : kv.1 = (kv.1.1, kv.1.2) := rfl
      rw [this, hp1, hh]
    · exfalso
      have hne := honly kv.1.2 hh
      rw [mget_eq_none_iff] at hne
      exact hne kv hkv (by rw [← hp1])
  obtain ⟨l₁, l₂, hsplit⟩ := List.append_of_mem (mem_of_mget_eq_some hget)
  subst hsplit
  rw [List.map_append, List.map_cons, List.nodup_append] at hnd
  obtain ⟨hnd1, hnd2, hdisj⟩ := hnd
  have hk1 : (p, h) ∉ l₁.map Prod.fst := fun hin => hdisj hin (List.mem_cons_self _ _)
  have hk2 : (p, h) ∉ l₂.map Prod.fst := (List.nodup_cons.mp hnd2).1
  have hw1 : ∀ w ∈ holderWrites l₁, w.key.1 ≠ p := by
    intro w hw
    obtain ⟨kv, hkv, rfl⟩ := List.mem_map.mp hw
    rw [holderWriteOf_key]
    intro hp1
    have hkey := hponly kv (List.mem_append_left _ hkv) hp1
    exact hk1 (hkey ▸ List.mem_map_of_mem Prod.fst hkv)
  have hw2 : ∀ w ∈ holderWrites l₂, w.key.1 ≠ p := by
    intro w hw
    obtain ⟨kv, hkv, rfl⟩ := List.mem_map.mp hw
    rw [holderWriteOf_key]
    intro hp1
    have hkey := hponly kv (List.mem_append_right _ (List.mem_cons_of_mem _ hkv)) hp1
    exact hk2 (hkey ▸ List.mem_map_of_mem Prod.fst hkv)
  have hws : holderWrites (l₁ ++ ((p, h), st) :: l₂)
      = holderWrites l₁ ++ holderWriteOf (p, h) st :: holderWrites l₂ := by
    simp [holderWrites]
  rw [hws]
  have happ : applyHolderWrites
      (holderWrites l₁ ++ holderWriteOf (p, h) st :: holderWrites l₂) db
      = applyHolderWrites (holderWrites l₂)
          (applyHolderWrite (applyHolderWrites (holderWrites l₁) db)
            (holderWriteOf (p, h) st)) := by
    unfold applyHolderWrites
    rw [List.foldl_append, List.foldl_cons]
  rw [happ]
  unfold holderCount
  rw [applyHolderWrites_pfilter p _ _ hw2]
  unfold holderWriteOf
  by_cases hz : st.finalBalance = 0
  · rw [if_pos hz, if_pos hz]
    have hdel : applyHolderWrite (applyHolderWrites (holderWrites l₁) db)
        (HolderWrite.del (p, h))
        = dbDelete (p, h) (applyHolderWrites (holderWrites l₁) db) := rfl
    rw [hdel, dbDelete_pfilter_same, applyHolderWrites_pfilter p _ _ hw1]
  · rw [if_neg hz, if_neg hz]
    have hup : applyHolderWrite (applyHolderWrites (holderWrites l₁) db)
        (HolderWrite.upsert (p, h) st.finalBalance st.lastTradePrice st.lastTradeIsBuy)
        = mset (p, h) ⟨st.finalBalance, st.lastTradePrice, st.lastTradeIsBuy⟩
            (applyHolderWrites (holderWrites l₁) db) := rfl
    rw [hup, mset_pfilter_same, applyHolderWrites_pfilter p _ _ hw1]

/-- C8: with the holder table's keys unique and the pass touching no other
holder of market p than h, the snapshot holder count — the sub-query over
holder rows evaluated after this pass's holder writes in the same batch —
decreases by exactly 1 when the tracked final balance of an existing holder
is zero (the delete), and increases by exactly 1 when a holder with no
existing row ends with a nonzero balance (the first new holder). -/
theorem claim8_holder_count_consistency (C : Nat) (ts : Nat → Nat) (logs : List Entry)
    (db : HolderTable) (p h : String)
    (hdbnd : (db.map Prod.fst).Nodup)
    (honly : ∀ h', h' ≠ h → mget (p, h') (foldEntries C ts logs).holders = none) :
    (∀ st : HolderState, mget (p, h) (foldEntries C ts logs).holders = some st →
        st.finalBalance = 0 → (p, h) ∈ db.map Prod.fst →
        snapshotHolderCount p (foldEntries C ts logs) db + 1 = holderCount p db)
      ∧ ∀ st : HolderState, mget (p, h) (foldEntries C ts logs).holders = some st →
          st.finalBalance ≠ 0 → (p, h) ∉ db.map Prod.fst →
          snapshotHolderCount p (foldEntries C ts logs) db = holderCount p db + 1 := by
  have hnd := foldEntries_holders_nodup C ts logs
  constructor
  · intro st hget hz hmem
    unfold snapshotHolderCount
    rw [holderCount_apply _ hnd p h st hget honly db, if_pos hz]
    exact dbDelete_length_mem (p, h) _ (pfilter_keys_nodup p db hdbnd)
      (mem_keys_pfilter p h db hmem)
  · intro st hget hz hmem
    unfold snapshotHolderCount
    rw [holderCount_apply _ hnd p h st hget honly db, if_neg hz]
    rw [mset_keys_of_not_mem _ (not_mem_keys_pfilter p h db hmem)]
    simp [holderCount]

/-- Witness for C8: market M has exactly one holder row (H, balance 100);
the pass drives H's final balance to 0; the snapshot holder count drops
from 1 to 0. -/
theorem claim8_witness :
    snapshotHolderCount "M" (foldEntries 1000 ts0 [eZero]) [(("M", "H"), ⟨100, 2, true⟩)] + 1
      = holderCount "M" [(("M", "H"), ⟨100, 2, true⟩)] := by
  have hres : (foldEntries 1000 ts0 [eZero]).holders
      = [(("M", "H"), holderStateOf eZero)] := by
    decide
  have honly : ∀ h', h' ≠ "H" →
      mget ("M", h') (foldEntries 1000 ts0 [eZero]).holders = none := by
    intro h' hne
    rw [hres, mget_eq_none_iff]
    intro kv hkv
    rw [List.mem_singleton] at hkv
    subst hkv
    intro hcontr
    exact hne (congrArg Prod.snd hcontr).symm
  exact (claim8_holder_count_consistency 1000 ts0 [eZero] [(("M", "H"), ⟨100, 2, true⟩)]
    "M" "H" (by decide) honly).1 (holderStateOf eZero) (by decide) (by decide) (by decide)

end Gaia
